import Mathlib

/-!
Verification development for the research-assessment web application
(genealogy assessment + AI-model biography rating).

The frontend logic under `Frontend/src/components` is shallowly embedded here:
React state updates become pure functions on explicit state values, JS objects
used as maps become Lean functions or association lists, JS strings become Lean
`String`s, and JS numbers (used only for integer scores and counts here) become
`Int`/`Nat`.  Fractional averages displayed via `toFixed(1)` are represented as
integer tenths.
-/

/-- The closed enumeration of rating categories from
`types/ai-comparison.ts` (`'affiliation' | 'research' | 'gender' | 'supervision'`). -/
inductive Category where
  | affiliation
  | research
  | gender
  | supervision
deriving DecidableEq, Repr

/-- One scored category, mirroring the TS interface
`RatingCategory { category; score }`. Scores are JS numbers used as integers
(the UI produces values on the 1–5 scale). -/
structure RatingCategory where
  category : Category
  score : Int
deriving DecidableEq, Repr

/-- Prompting technique enumeration from `types/ai-comparison.ts`
(`'zero-shot' | 'few-shot' | 'chain-of-thought'`). -/
inductive Technique where
  | zeroShot
  | fewShot
  | chainOfThought
deriving DecidableEq, Repr

/-- The TS interface `ModelRating` from `types/ai-comparison.ts`. -/
structure ModelRating where
  id : String
  model : String
  technique : Technique
  prompt : String
  response : String
  ratings : List RatingCategory
  timestamp : String
  notes : Option String
deriving DecidableEq, Repr

/-- The scientist reference record from `types/ai-comparison.ts`. -/
structure Scientist where
  name : String
  type : String
  gender : String
deriving DecidableEq, Repr

/-- The in-memory rating state of `ModelComparison`:
`useState<Record<string, RatingCategory[]>>({})`.  A key absent from the JS
record reads as the empty list (the code always reads `ratings[modelKey] || []`),
so the record is embedded as a total function into lists. -/
def RatingsMap : Type := String → List RatingCategory

/-- The initial rating state `{}`. -/
def emptyRatingsMap : RatingsMap := fun _ => []

/-- `handleRatingChange` of `ModelComparison.tsx` (both the 3-category and the
4-category variant have the identical body), acting on the list stored under one
model key:
`(prev[modelKey] || []).filter(r => r.category !== category).concat({ category, score })`. -/
def handleRatingChange (l : List RatingCategory) (category : Category) (score : Int) :
    List RatingCategory :=
  (l.filter fun r => decide (r.category ≠ category)) ++ [⟨category, score⟩]

/-- `handleRatingChange` lifted to the whole rating record:
`setRatings(prev => ({ ...prev, [modelKey]: ... }))`. -/
def handleRatingChangeMap (m : RatingsMap) (modelKey : String) (category : Category)
    (score : Int) : RatingsMap :=
  fun k => if k = modelKey then handleRatingChange (m modelKey) category score else m k

/-- One `handleRatingChange(modelKey, category, score)` call. -/
structure RatingEvent where
  modelKey : String
  category : Category
  score : Int
deriving DecidableEq, Repr

/-- The rating state after a sequence of `handleRatingChange` calls starting
from the initial `{}` state. -/
def applyRatingEvents (evs : List RatingEvent) : RatingsMap :=
  evs.foldl (fun m e => handleRatingChangeMap m e.modelKey e.category e.score) emptyRatingsMap

/-- Folding a sequence of `handleRatingChange` calls over a single list. -/
def applyRatingList (evs : List (Category × Int)) (l : List RatingCategory) :
    List RatingCategory :=
  evs.foldl (fun acc e => handleRatingChange acc e.1 e.2) l

/-- The score of the last call in `evs` that touched category `c`, if any. -/
def lastScore (evs : List (Category × Int)) (c : Category) : Option Int :=
  ((evs.filter fun e => decide (e.1 = c)).map fun e => e.2).getLast?

/-- The per-key projection of an event sequence. -/
def eventsAt (evs : List RatingEvent) (k : String) : List (Category × Int) :=
  (evs.filter fun e => decide (e.modelKey = k)).map fun e => (e.category, e.score)

theorem applyRatingList_append (evs₁ evs₂ : List (Category × Int)) (l : List RatingCategory) :
    applyRatingList (evs₁ ++ evs₂) l = applyRatingList evs₂ (applyRatingList evs₁ l) := by
  simp [applyRatingList, List.foldl_append]

theorem applyRatingEvents_eq_applyRatingList (evs : List RatingEvent) (k : String) :
    applyRatingEvents evs k = applyRatingList (eventsAt evs k) [] := by
  suffices h : ∀ (m : RatingsMap),
      (evs.foldl (fun m e => handleRatingChangeMap m e.modelKey e.category e.score) m) k
        = applyRatingList (eventsAt evs k) (m k) by
    exact h emptyRatingsMap
  induction evs with
  | nil => intro m; simp [eventsAt, applyRatingList]
  | cons e es ih =>
    intro m
    simp only [List.foldl_cons]
    rw [ih]
    by_cases hk : e.modelKey = k
    · subst hk
      simp [eventsAt, applyRatingList, handleRatingChangeMap]
    · have hk' : ¬ (k = e.modelKey) := fun h => hk h.symm
      simp [eventsAt, applyRatingList, handleRatingChangeMap, hk, hk']

theorem pairwise_handleRatingChange {l : List RatingCategory} (c : Category) (s : Int)
    (h : l.Pairwise fun a b => a.category ≠ b.category) :
    (handleRatingChange l c s).Pairwise fun a b => a.category ≠ b.category := by
  unfold handleRatingChange
  rw [List.pairwise_append]
  refine ⟨h.sublist (List.filter_sublist l), by simp, ?_⟩
  intro a ha b hb
  simp only [List.mem_singleton] at hb
  subst hb
  have := List.of_mem_filter ha
  simpa using this

theorem find?_filter_of_imp {p q : RatingCategory → Bool} (l : List RatingCategory)
    (h : ∀ x, p x = true → q x = true) :
    (l.filter q).find? p = l.find? p := by
  induction l with
  | nil => rfl
  | cons x xs ih =>
    by_cases hq : q x = true
    · by_cases hp : p x = true
      · simp [List.filter_cons, hq, List.find?_cons, hp]
      · simp [List.filter_cons, hq, List.find?_cons, hp, ih]
    · have hp : p x ≠ true := fun hpx => hq (h x hpx)
      simp [List.filter_cons, hq, List.find?_cons, hp, ih]

theorem find?_handleRatingChange_self (l : List RatingCategory) (c : Category) (s : Int) :
    ((handleRatingChange l c s).find? fun r => decide (r.category = c))
      = some ⟨c, s⟩ := by
  unfold handleRatingChange
  rw [List.find?_append]
  have hnone : ((l.filter fun r => decide (r.category ≠ c)).find?
      fun r => decide (r.category = c)) = none := by
    rw [List.find?_eq_none]
    intro x hx
    have := List.of_mem_filter hx
    simpa using this
  simp [hnone]

theorem find?_handleRatingChange_other (l : List RatingCategory) (c c' : Category) (s : Int)
    (hne : c' ≠ c) :
    ((handleRatingChange l c s).find? fun r => decide (r.category = c'))
      = l.find? fun r => decide (r.category = c') := by
  unfold handleRatingChange
  rw [List.find?_append]
  rw [find?_filter_of_imp]
  · cases hfind : l.find? fun r => decide (r.category = c') with
    | none =>
      have : ¬ (c = c') := fun h => hne h.symm
      simp [this]
    | some r => simp
  · intro x hx
    simp only [decide_eq_true_eq] at hx ⊢
    rw [hx]
    exact hne

theorem pairwise_applyRatingList (evs : List (Category × Int)) :
    (applyRatingList evs []).Pairwise fun a b => a.category ≠ b.category := by
  induction evs using List.reverseRecOn with
  | nil => simp [applyRatingList]
  | append_singleton es e ih =>
    rw [applyRatingList_append]
    exact pairwise_handleRatingChange e.1 e.2 ih

theorem find?_applyRatingList (evs : List (Category × Int)) (c : Category) :
    ((applyRatingList evs []).find? fun r => decide (r.category = c)).map
        (fun r => r.score)
      = lastScore evs c := by
  induction evs using List.reverseRecOn with
  | nil => simp [applyRatingList, lastScore]
  | append_singleton es e ih =>
    rw [applyRatingList_append]
    by_cases hc : e.1 = c
    · subst hc
      rw [show applyRatingList [e] (applyRatingList es []) =
          handleRatingChange (applyRatingList es []) e.1 e.2 from rfl]
      rw [find?_handleRatingChange_self]
      simp [lastScore, List.filter_append]
    · have hc' : c ≠ e.1 := fun h => hc h.symm
      rw [show applyRatingList [e] (applyRatingList es []) =
          handleRatingChange (applyRatingList es []) e.1 e.2 from rfl]
      rw [find?_handleRatingChange_other _ _ _ _ hc']
      rw [ih]
      simp [lastScore, List.filter_append, hc]

/-- C1: for every sequence of `handleRatingChange(modelKey, category, score)`
calls starting from the empty rating state, the list stored under any model key
never contains two entries with the same category, and the entry found for a
category (as the UI reads it, via `find`) carries exactly the score of the last
call that touched that category under that key. -/
theorem rate_last_write_wins (evs : List RatingEvent) (k : String) :
    ((applyRatingEvents evs k).Pairwise fun a b => a.category ≠ b.category)
      ∧ ∀ c : Category,
        ((applyRatingEvents evs k).find? fun r => decide (r.category = c)).map
            (fun r => r.score)
          = lastScore (eventsAt evs k) c := by
  rw [applyRatingEvents_eq_applyRatingList]
  exact ⟨pairwise_applyRatingList _, fun c => find?_applyRatingList _ c⟩

/-- The required category set of the 3-category variant of `ModelComparison.tsx`
(`ratingCategories = ['affiliation', 'research', 'gender']`). -/
def ratingCategories1 : List Category :=
  [Category.affiliation, Category.research, Category.gender]

/-- The required category set of the 4-category variant of `ModelComparison.tsx`
(`ratingCategories = ['affiliation', 'research', 'gender', 'supervision']`). -/
def ratingCategories2 : List Category :=
  [Category.affiliation, Category.research, Category.gender, Category.supervision]

/-- `notes[modelKey] || undefined`: the empty string is falsy in JS, so an empty
note becomes `undefined`. -/
def notesOf (note : String) : Option String := if note = "" then none else some note

/-- `saveRating` of the 3-category `ModelComparison.tsx` variant.  The guard is
`modelRatings.length === 3 && selectedScientist && biographyData`; when it holds
a `ModelRating` is built and posted (returned here), otherwise nothing happens.
The prompt text (`getPromptForModel()`) and the fresh id/timestamp are supplied
by the environment. -/
def saveRating (ratings : RatingsMap) (modelKey : String) (selectedScientist : Option Scientist)
    (hasBiographyData : Bool) (freshId promptText timestamp note : String) : Option ModelRating :=
  match selectedScientist with
  | some _ =>
    if (ratings modelKey).length = 3 ∧ hasBiographyData = true then
      some { id := freshId, model := modelKey, technique := Technique.zeroShot,
             prompt := promptText, response := "Response for " ++ modelKey,
             ratings := ratings modelKey, timestamp := timestamp, notes := notesOf note }
    else none
  | none => none

/-- `saveRating` of the 4-category (supervision) `ModelComparison.tsx` variant.
The guard is `modelRatings.length === 4 && selectedScientist && biographyData`
and the prompt is built as `` `${selectedScientist.name} biography assessment` ``. -/
def saveRating4 (ratings : RatingsMap) (modelKey : String) (selectedScientist : Option Scientist)
    (hasBiographyData : Bool) (freshId timestamp note : String) : Option ModelRating :=
  match selectedScientist with
  | some sci =>
    if (ratings modelKey).length = 4 ∧ hasBiographyData = true then
      some { id := freshId, model := modelKey, technique := Technique.zeroShot,
             prompt := sci.name ++ " biography assessment",
             response := "Response for " ++ modelKey,
             ratings := ratings modelKey, timestamp := timestamp, notes := notesOf note }
    else none
  | none => none

theorem category_mem_applyRatingList (cats : List Category) :
    ∀ (evs : List (Category × Int)) (l : List RatingCategory),
      (∀ e ∈ evs, e.1 ∈ cats) → (∀ r ∈ l, r.category ∈ cats) →
      ∀ r ∈ applyRatingList evs l, r.category ∈ cats := by
  intro evs
  induction evs with
  | nil => intro l _ hl; simpa [applyRatingList] using hl
  | cons e es ih =>
    intro l hevs hl r hr
    have hstep : applyRatingList (e :: es) l
        = applyRatingList es (handleRatingChange l e.1 e.2) := rfl
    rw [hstep] at hr
    refine ih (handleRatingChange l e.1 e.2)
      (fun x hx => hevs x (List.mem_cons_of_mem _ hx)) ?_ r hr
    intro x hx
    unfold handleRatingChange at hx
    rcases List.mem_append.mp hx with hx | hx
    · exact hl x (List.mem_of_mem_filter hx)
    · simp only [List.mem_singleton] at hx
      subst hx
      exact hevs e (List.mem_cons_self _ _)

theorem countP_eq_one_of_complete (cats : List Category) (rl : List RatingCategory)
    (hone : ∀ c ∈ cats, cats.countP (fun x => decide (x = c)) = 1)
    (hpw : rl.Pairwise fun a b => a.category ≠ b.category)
    (hsub : ∀ r ∈ rl, r.category ∈ cats)
    (hlen : rl.length = cats.length) :
    ∀ c ∈ cats, rl.countP (fun r => decide (r.category = c)) = 1 := by
  have hnodup : List.Nodup (rl.map fun r => r.category) := by
    rw [List.Nodup, List.pairwise_map]
    exact hpw
  have hsub' : (rl.map fun r => r.category) ⊆ cats := by
    intro x hx
    rcases List.mem_map.mp hx with ⟨r, hr, rfl⟩
    exact hsub r hr
  have hsubperm := hnodup.subperm hsub'
  have hperm : List.Perm (rl.map fun r => r.category) cats := by
    refine hsubperm.perm_of_length_le ?_
    simp [hlen]
  intro c hc
  have h1 : rl.countP (fun r => decide (r.category = c))
      = List.countP (fun x => decide (x = c)) (rl.map fun r => r.category) := by
    rw [List.countP_map]
    rfl
  rw [h1, hperm.countP_eq]
  exact hone c hc


theorem eventsAt_category_mem (cats : List Category) (evs : List RatingEvent) (k : String)
    (h : ∀ e ∈ evs, e.category ∈ cats) : ∀ e ∈ eventsAt evs k, e.1 ∈ cats := by
  intro e he
  unfold eventsAt at he
  rcases List.mem_map.mp he with ⟨ev, hev, rfl⟩
  exact h ev (List.mem_of_mem_filter hev)

theorem applyRatingEvents_category_mem (cats : List Category) (evs : List RatingEvent)
    (k : String) (h : ∀ e ∈ evs, e.category ∈ cats) :
    ∀ r ∈ applyRatingEvents evs k, r.category ∈ cats := by
  rw [applyRatingEvents_eq_applyRatingList]
  exact category_mem_applyRatingList _ _ _ (eventsAt_category_mem _ _ _ h) (by simp)

/-- C2: for any rating state reachable by `handleRatingChange` calls whose
categories come from the variant's required list, `saveRating` (3-category
variant) posts a record only when the stored list for that model key carries
exactly one entry per required category, and that list becomes the posted
record's `ratings`; whenever the stored list is shorter or longer than 3
entries, `saveRating` posts nothing.  The 4-category (supervision) variant
satisfies the same property with its extended category list and length 4. -/
theorem saveRating_posts_iff_complete :
    (∀ (evs : List RatingEvent) (k : String) (sci : Option Scientist) (hbio : Bool)
        (fid pr ts nt : String),
      (∀ e ∈ evs, e.category ∈ ratingCategories1) →
      (∀ r, saveRating (applyRatingEvents evs) k sci hbio fid pr ts nt = some r →
          r.ratings = applyRatingEvents evs k ∧
          ∀ c ∈ ratingCategories1,
            (applyRatingEvents evs k).countP (fun x => decide (x.category = c)) = 1)
      ∧ ((applyRatingEvents evs k).length ≠ 3 →
          saveRating (applyRatingEvents evs) k sci hbio fid pr ts nt = none))
    ∧ (∀ (evs : List RatingEvent) (k : String) (sci : Option Scientist) (hbio : Bool)
        (fid ts nt : String),
      (∀ e ∈ evs, e.category ∈ ratingCategories2) →
      (∀ r, saveRating4 (applyRatingEvents evs) k sci hbio fid ts nt = some r →
          r.ratings = applyRatingEvents evs k ∧
          ∀ c ∈ ratingCategories2,
            (applyRatingEvents evs k).countP (fun x => decide (x.category = c)) = 1)
      ∧ ((applyRatingEvents evs k).length ≠ 4 →
          saveRating4 (applyRatingEvents evs) k sci hbio fid ts nt = none)) := by
  constructor
  · intro evs k sci hbio fid pr ts nt hcats
    have hpw := (rate_last_write_wins evs k).1
    have hsub := applyRatingEvents_category_mem ratingCategories1 evs k hcats
    constructor
    · intro r hr
      cases sci with
      | none => simp [saveRating] at hr
      | some s =>
        simp only [saveRating] at hr
        split at hr
        · rename_i hg
          have hrr : r.ratings = applyRatingEvents evs k := by
            cases hr
            rfl
          refine ⟨hrr, ?_⟩
          exact countP_eq_one_of_complete ratingCategories1 _ (by decide) hpw hsub
            (by simpa [ratingCategories1] using hg.1)
        · exact absurd hr (by simp)
    · intro hne
      cases sci with
      | none => rfl
      | some s =>
        simp only [saveRating]
        rw [if_neg]
        rintro ⟨h3, _⟩
        exact hne h3
  · intro evs k sci hbio fid ts nt hcats
    have hpw := (rate_last_write_wins evs k).1
    have hsub := applyRatingEvents_category_mem ratingCategories2 evs k hcats
    constructor
    · intro r hr
      cases sci with
      | none => simp [saveRating4] at hr
      | some s =>
        simp only [saveRating4] at hr
        split at hr
        · rename_i hg
          have hrr : r.ratings = applyRatingEvents evs k := by
            cases hr
            rfl
          refine ⟨hrr, ?_⟩
          exact countP_eq_one_of_complete ratingCategories2 _ (by decide) hpw hsub
            (by simpa [ratingCategories2] using hg.1)
        · exact absurd hr (by simp)
    · intro hne
      cases sci with
      | none => rfl
      | some s =>
        simp only [saveRating4]
        rw [if_neg]
        rintro ⟨h4, _⟩
        exact hne h4

/-- Witness for C2: with only affiliation and research rated under key "m",
the stored list has length 2 and `saveRating` posts nothing; analogously for
the 4-category variant. -/
theorem saveRating_posts_iff_complete_witness :
    saveRating
        (applyRatingEvents
          [⟨"m", Category.affiliation, 5⟩, ⟨"m", Category.research, 4⟩])
        "m" (some ⟨"Ada", "physicist", "female"⟩) true "id0" "p0" "t0" "" = none
    ∧ saveRating4
        (applyRatingEvents
          [⟨"m", Category.affiliation, 5⟩, ⟨"m", Category.research, 4⟩])
        "m" (some ⟨"Ada", "physicist", "female"⟩) true "id0" "t0" "" = none := by
  constructor
  · exact (saveRating_posts_iff_complete.1
      [⟨"m", Category.affiliation, 5⟩, ⟨"m", Category.research, 4⟩]
      "m" (some ⟨"Ada", "physicist", "female"⟩) true "id0" "p0" "t0" ""
      (by decide)).2 (by decide)
  · exact (saveRating_posts_iff_complete.2
      [⟨"m", Category.affiliation, 5⟩, ⟨"m", Category.research, 4⟩]
      "m" (some ⟨"Ada", "physicist", "female"⟩) true "id0" "t0" ""
      (by decide)).2 (by decide)

/-- The genealogy assessment record (`AssessmentData` interface of
`GenealogyTab.tsx` / `SupervisionQuestionnaire`). -/
structure AssessmentData where
  id : String
  person_name : String
  supervisors : String
  supervisees : String
  supervisors_source_url : String
  supervisees_source_url : String
  timestamp : String
  notes : Option String
deriving DecidableEq, Repr

/-- The `saveAllStatus` state of `GenealogyTab.tsx`:
`'idle' | 'saving' | 'success' | 'error'`. -/
inductive SaveAllStatus where
  | idle
  | saving
  | success
  | error
deriving DecidableEq, Repr

/-- The `for (const assessment of assessmentsToSave)` loop of
`saveAllAssessments`: every record is posted once, in order; `response.ok`
(here the `accept` oracle) decides whether `successCount` is incremented; a
rejected record is neither retried nor does it stop the loop.  Returns the
posted records each tagged with its outcome, together with `successCount`. -/
def saveAllLoop (accept : AssessmentData → Bool) :
    List AssessmentData → List (AssessmentData × Bool) × Nat
  | [] => ([], 0)
  | a :: rest =>
    let ok := accept a
    let r := saveAllLoop accept rest
    ((a, ok) :: r.1, (if ok then 1 else 0) + r.2)

/-- `saveAllAssessments` of `GenealogyTab.tsx`: posts all collected records and
sets `saveAllStatus` to `'success'` exactly when
`successCount === assessmentsToSave.length`, otherwise to `'error'`. -/
def saveAllAssessments (accept : AssessmentData → Bool)
    (assessmentsToSave : List AssessmentData) :
    List (AssessmentData × Bool) × Nat × SaveAllStatus :=
  let r := saveAllLoop accept assessmentsToSave
  (r.1, r.2, if r.2 = assessmentsToSave.length then SaveAllStatus.success
             else SaveAllStatus.error)

theorem saveAllLoop_posted (accept : AssessmentData → Bool) (l : List AssessmentData) :
    (saveAllLoop accept l).1.map Prod.fst = l := by
  induction l with
  | nil => rfl
  | cons a rest ih => simp [saveAllLoop, ih]

theorem saveAllLoop_flags (accept : AssessmentData → Bool) (l : List AssessmentData) :
    ∀ p ∈ (saveAllLoop accept l).1, p.2 = accept p.1 := by
  induction l with
  | nil => intro p hp; simp [saveAllLoop] at hp
  | cons a rest ih =>
    intro p hp
    simp only [saveAllLoop, List.mem_cons] at hp
    rcases hp with hp | hp
    · subst hp; rfl
    · exact ih p hp

theorem saveAllLoop_count (accept : AssessmentData → Bool) (l : List AssessmentData) :
    (saveAllLoop accept l).2 = l.countP accept := by
  induction l with
  | nil => rfl
  | cons a rest ih =>
    simp only [saveAllLoop, ih, List.countP_cons]
    by_cases h : accept a = true
    · simp [h]
      omega
    · simp [h]

/-- C3: `saveAllAssessments` posts every collected record exactly once, in
collection order, regardless of individual rejections (a backend-rejected
record is skipped, not retried, and the remaining records are still posted);
the success tally equals the number of accepted records; and the reported
status is `'success'` if and only if every record was accepted. -/
theorem saveAllAssessments_partial_failure (accept : AssessmentData → Bool)
    (records : List AssessmentData) :
    ((saveAllAssessments accept records).1.map Prod.fst = records)
    ∧ (∀ p ∈ (saveAllAssessments accept records).1, p.2 = accept p.1)
    ∧ ((saveAllAssessments accept records).2.1 = records.countP accept)
    ∧ ((saveAllAssessments accept records).2.2 = SaveAllStatus.success
        ↔ ∀ a ∈ records, accept a = true) := by
  refine ⟨saveAllLoop_posted accept records, saveAllLoop_flags accept records,
    saveAllLoop_count accept records, ?_⟩
  show (if (saveAllLoop accept records).2 = records.length then SaveAllStatus.success
      else SaveAllStatus.error) = SaveAllStatus.success ↔ _
  rw [saveAllLoop_count]
  by_cases h : records.countP accept = records.length
  · rw [if_pos h]
    constructor
    · intro _
      exact List.countP_eq_length.mp h
    · intro _
      rfl
  · rw [if_neg h]
    constructor
    · intro hfalse; cases hfalse
    · intro hall
      exact absurd (List.countP_eq_length.mpr hall) h

/-- JS `String.prototype.toLowerCase`, on the character list of a string
(ASCII-faithful). -/
def jsToLower (s : List Char) : List Char := s.map Char.toLower

/-- JS `String.prototype.includes`: substring containment. -/
def jsIncludes (s pat : List Char) : Bool := decide (pat <:+: s)

/-- Case-insensitive containment, i.e. `name.toLowerCase().includes(pat)` for a
lower-case pattern. -/
def containsCI (s pat : String) : Bool := jsIncludes (jsToLower s.toList) pat.toList

/-- `getInitial` inside `getAnonymizedModelName` of the anonymizing
`ModelComparison.tsx` variant: an ordered cascade of case-insensitive keyword
checks, first match wins; an unmatched name falls back to
`name.charAt(0).toUpperCase()`. -/
def getInitial (name : String) : String :=
  let lowerName := jsToLower name.toList
  if jsIncludes lowerName "deepseek".toList then "D"
  else if jsIncludes lowerName "gpt".toList || jsIncludes lowerName "davinci".toList then "G"
  else if jsIncludes lowerName "qwen".toList then "Q"
  else if jsIncludes lowerName "gemma".toList then "M"
  else if jsIncludes lowerName "claude".toList then "C"
  else if jsIncludes lowerName "gemini".toList || jsIncludes lowerName "bard".toList then "E"
  else if jsIncludes lowerName "llama".toList then "L"
  else if jsIncludes lowerName "mistral".toList || jsIncludes lowerName "mixtral".toList then "X"
  else if jsIncludes lowerName "cohere".toList then "H"
  else if jsIncludes lowerName "palm".toList then "P"
  else if jsIncludes lowerName "yi-".toList then "Y"
  else String.mk ((name.toList.take 1).map Char.toUpper)

/-- `getAnonymizedModelName` of `ModelComparison.tsx`:
``return `Bio-${getInitial(modelName)}`;``.  A pure function of the input
string (no random or session state), so determinism across calls is
definitional in this embedding. -/
def getAnonymizedModelName (modelName : String) : String := "Bio-" ++ getInitial modelName

/-- `getDisplayModelName` simply forwards to `getAnonymizedModelName`. -/
def getDisplayModelName (modelName : String) : String := getAnonymizedModelName modelName

/-- Whether a model name matches any keyword of the ordered cascade in
`getInitial` (i.e. does not fall through to the first-character fallback). -/
def matchesKnownKeyword (name : String) : Bool :=
  containsCI name "deepseek" || containsCI name "gpt" || containsCI name "davinci" ||
  containsCI name "qwen" || containsCI name "gemma" || containsCI name "claude" ||
  containsCI name "gemini" || containsCI name "bard" || containsCI name "llama" ||
  containsCI name "mistral" || containsCI name "mixtral" || containsCI name "cohere" ||
  containsCI name "palm" || containsCI name "yi-"

/-- Counterexample to C4 as stated: "claude-deepseek" contains "claude" and
"deepseek-r1" contains "deepseek", yet both names map to the same bucket label
`Bio-D`, because the ordered cascade checks "deepseek" first. -/
theorem anonymize_claude_deepseek_collision :
    containsCI "claude-deepseek" "claude" = true
    ∧ containsCI "deepseek-r1" "deepseek" = true
    ∧ getAnonymizedModelName "claude-deepseek" = getAnonymizedModelName "deepseek-r1" := by
  refine ⟨by decide, by decide, ?_⟩
  decide

/-- C4 (amended): `getAnonymizedModelName` is a pure function (determinism is
definitional), and a name containing "claude" but not "deepseek"
(case-insensitively) never maps to the same bucket label as a name containing
"deepseek". -/
theorem anonymize_deterministic_and_separates (a b : String)
    (hac : containsCI a "claude" = true)
    (had : containsCI a "deepseek" = false)
    (hbd : containsCI b "deepseek" = true) :
    getAnonymizedModelName a = getAnonymizedModelName a
    ∧ getAnonymizedModelName a ≠ getAnonymizedModelName b := by
  refine ⟨rfl, ?_⟩
  unfold containsCI at hac had hbd
  have hfb : getAnonymizedModelName b = "Bio-D" := by
    simp only [getAnonymizedModelName, getInitial]
    rw [if_pos hbd]
    decide
  rw [hfb]
  simp only [getAnonymizedModelName, getInitial]
  split_ifs <;> first
    | decide
    | simp_all

/-- C5: unmatched model names (no keyword of the ordered cascade applies) are
labelled from the upper-cased first character of the name, and this fallback is
not collision-free: "zebra" and "zulu" are distinct unmatched names that both
receive the label `Bio-Z`. -/
theorem anonymize_fallback_collides :
    (∀ name : String, matchesKnownKeyword name = false →
        getAnonymizedModelName name
          = "Bio-" ++ String.mk ((name.toList.take 1).map Char.toUpper))
    ∧ (("zebra" : String) ≠ "zulu"
        ∧ matchesKnownKeyword "zebra" = false
        ∧ matchesKnownKeyword "zulu" = false
        ∧ getAnonymizedModelName "zebra" = getAnonymizedModelName "zulu") := by
  constructor
  · intro name h
    unfold matchesKnownKeyword containsCI at h
    simp only [Bool.or_eq_false_iff] at h
    obtain ⟨⟨⟨⟨⟨⟨⟨⟨⟨⟨⟨⟨⟨h1, h2⟩, h3⟩, h4⟩, h5⟩, h6⟩, h7⟩, h8⟩, h9⟩, h10⟩, h11⟩,
      h12⟩, h13⟩, h14⟩ := h
    simp only [getAnonymizedModelName, getInitial]
    rw [h1, h2, h3, h4, h5, h6, h7, h8, h9, h10, h11, h12, h13, h14]
    simp
  · refine ⟨by decide, by decide, by decide, ?_⟩
    decide

/-- Witness for C4 (amended), at the concrete pair ("claude", "deepseek"). -/
theorem anonymize_deterministic_and_separates_witness :
    containsCI "claude" "claude" = true
    ∧ containsCI "claude" "deepseek" = false
    ∧ containsCI "deepseek" "deepseek" = true
    ∧ getAnonymizedModelName "claude" ≠ getAnonymizedModelName "deepseek" :=
  ⟨by decide, by decide, by decide,
    (anonymize_deterministic_and_separates "claude" "deepseek"
      (by decide) (by decide) (by decide)).2⟩

/-- Witness for C5, at the concrete unmatched name "zebra". -/
theorem anonymize_fallback_collides_witness :
    matchesKnownKeyword "zebra" = false
    ∧ getAnonymizedModelName "zebra"
        = "Bio-" ++ String.mk (("zebra".toList.take 1).map Char.toUpper) :=
  ⟨by decide, anonymize_fallback_collides.1 "zebra" (by decide)⟩

/-- The biography phase of `ModelComparison.tsx`:
`useState<'minimal' | 'comprehensive'>('minimal')`. -/
inductive BiographyType where
  | minimal
  | comprehensive
deriving DecidableEq, Repr

/-- The phase-relevant state of the `ModelComparison` component: the selected
biography phase and the in-memory rating map. -/
structure ModelComparisonState where
  biographyType : BiographyType
  ratings : RatingsMap

/-- The initial component state: `biographyType` starts as `'minimal'` and the
rating map as `{}`. -/
def initialComparisonState : ModelComparisonState :=
  { biographyType := BiographyType.minimal, ratings := emptyRatingsMap }

/-- The biography-type toggle buttons of `ModelComparison.tsx`:
`onClick={() => setBiographyType('minimal' | 'comprehensive')}` replaces the
phase and touches nothing else. -/
def setBiographyType (s : ModelComparisonState) (t : BiographyType) : ModelComparisonState :=
  { s with biographyType := t }

/-- Whether the Comprehensive toggle button accepts a click.  In the source the
button carries no `disabled` attribute and its `onClick` is unguarded, so the
toggle is always enabled. -/
def comprehensiveToggleEnabled (_s : ModelComparisonState) : Bool := true

/-- The number of model keys whose stored rating list covers all 3 required
categories (the completion notion of the 3-category variant, where the rating
map is keyed by model). -/
def fullyRatedModelCount (models : List String) (s : ModelComparisonState) : Nat :=
  (models.filter fun k => decide ((s.ratings k).length = 3)).length

/-- Counterexample to C6 as stated: in the initial state nothing is rated (zero
fully rated items), yet the Comprehensive toggle is enabled and clicking it does
advance the phase to `'comprehensive'` — the code gates phase advancement on
nothing. -/
theorem phase_toggle_ungated :
    fullyRatedModelCount ["model_a", "model_b"] initialComparisonState = 0
    ∧ comprehensiveToggleEnabled initialComparisonState = true
    ∧ (setBiographyType initialComparisonState BiographyType.comprehensive).biographyType
        = BiographyType.comprehensive := by
  refine ⟨?_, rfl, rfl⟩
  decide

/-- C6 (amended): advancing from the minimal phase to the comprehensive phase
is always permitted, for every component state — the toggle has no
completeness precondition — and the toggle changes only the phase, leaving the
rating map untouched. -/
theorem phase_toggle_always_permitted (s : ModelComparisonState) :
    comprehensiveToggleEnabled s = true
    ∧ (setBiographyType s BiographyType.comprehensive).biographyType
        = BiographyType.comprehensive
    ∧ (setBiographyType s BiographyType.comprehensive).ratings = s.ratings :=
  ⟨rfl, rfl, rfl⟩

/-- The per-model accumulator of `RatingsSummary.tsx` (`modelStats` reduce).
The JS reduce also writes `total${Category}` keys for gender/supervision
entries into fields that start out `undefined` (yielding `NaN`); those fields
are never read by `modelAverages`, so only the fields that are read
(`count`, `totalAffiliation`, `totalResearch`) are represented. -/
structure ModelStat where
  count : Nat
  totalAffiliation : Int
  totalResearch : Int
deriving DecidableEq, Repr

/-- Sum of the scores of the entries of one category inside a rating's
`ratings` list (what the `rating.ratings.forEach` accumulation adds to the
category's total). -/
def sumScores (c : Category) (rs : List RatingCategory) : Int :=
  ((rs.filter fun r => decide (r.category = c)).map fun r => r.score).sum

/-- The all-zero accumulator created when a model key is first seen. -/
def emptyStat : ModelStat := { count := 0, totalAffiliation := 0, totalResearch := 0 }

/-- One step of the `modelStats` reduce for a single rating: bump the count and
add the rating's affiliation/research scores to the totals. -/
def bumpStat (st : ModelStat) (r : ModelRating) : ModelStat :=
  { count := st.count + 1,
    totalAffiliation := st.totalAffiliation + sumScores Category.affiliation r.ratings,
    totalResearch := st.totalResearch + sumScores Category.research r.ratings }

/-- Updating the accumulator object for one rating.  A JS object keyed by
strings preserves insertion order, so it is embedded as an association list:
an existing key is updated in place, a new key is appended at the end. -/
def updateStats : List (String × ModelStat) → ModelRating → List (String × ModelStat)
  | [], r => [(r.model, bumpStat emptyStat r)]
  | (k, st) :: rest, r =>
    if k = r.model then (k, bumpStat st r) :: rest
    else (k, st) :: updateStats rest r

/-- `modelStats` of `RatingsSummary.tsx`: the reduce over the rating list. -/
def modelStats (ratings : List ModelRating) : List (String × ModelStat) :=
  ratings.foldl updateStats []

/-- The displayed one-decimal value `(num / den).toFixed(1)` represented as
integer tenths (round half up), for a nonnegative numerator and positive
denominator — the regime of all aggregator outputs on 1–5 scores. -/
def toFixed1 (num den : Int) : Int := (20 * num + den) / (2 * den)

/-- One row of `modelAverages` in `RatingsSummary.tsx`; the three one-decimal
strings are represented as integer tenths. -/
structure ModelAverage where
  model : String
  count : Nat
  avgAffiliation10 : Int
  avgResearch10 : Int
  overall10 : Int
deriving DecidableEq, Repr

/-- `modelAverages` of `RatingsSummary.tsx`:
`avgAffiliation = (totalAffiliation / count).toFixed(1)`,
`avgResearch = (totalResearch / count).toFixed(1)`,
`overall = ((totalAffiliation + totalResearch) / (count * 2)).toFixed(1)`. -/
def modelAverages (ratings : List ModelRating) : List ModelAverage :=
  (modelStats ratings).map fun p =>
    { model := p.1, count := p.2.count,
      avgAffiliation10 := toFixed1 p.2.totalAffiliation p.2.count,
      avgResearch10 := toFixed1 p.2.totalResearch p.2.count,
      overall10 := toFixed1 (p.2.totalAffiliation + p.2.totalResearch) (p.2.count * 2) }

/-- `sortedModels` of `RatingsSummary.tsx`:
`modelAverages.sort((a, b) => parseFloat(b.overall) - parseFloat(a.overall))`.
JS `Array.prototype.sort` is stable and the comparator orders by the displayed
overall value descending; a stable sort for a total preorder is unique, so it
is embedded as a stable insertion sort on the tenths key. -/
def sortedModels (ratings : List ModelRating) : List ModelAverage :=
  List.insertionSort (fun a b => b.overall10 ≤ a.overall10) (modelAverages ratings)

/-- The number of ratings of one model in the input list. -/
def countModel (l : List ModelRating) (m : String) : Nat :=
  l.countP fun r => decide (r.model = m)

/-- The total score mass one category contributes for one model across the
input list. -/
def totalScores (l : List ModelRating) (m : String) (c : Category) : Int :=
  ((l.filter fun r => decide (r.model = m)).map fun r => sumScores c r.ratings).sum

/-- Association lookup into the accumulator (JS property access). -/
def statFor (stats : List (String × ModelStat)) (m : String) : Option ModelStat :=
  (stats.find? fun p => decide (p.1 = m)).map Prod.snd

theorem statFor_updateStats (acc : List (String × ModelStat)) (r : ModelRating) (m : String) :
    statFor (updateStats acc r) m
      = if r.model = m then some (bumpStat ((statFor acc m).getD emptyStat) r)
        else statFor acc m := by
  induction acc with
  | nil =>
    by_cases h : r.model = m
    · simp [updateStats, statFor, h]
    · simp [updateStats, statFor, h]
  | cons p rest ih =>
    obtain ⟨k, st⟩ := p
    by_cases hk : k = r.model
    · by_cases hm : k = m
      · have hrm : r.model = m := hk ▸ hm
        simp [updateStats, statFor, hk, hm, hrm]
      · have hrm : ¬ (r.model = m) := fun h => hm (hk.trans h)
        simp [updateStats, statFor, hk, hm, hrm]
    · by_cases hm : k = m
      · subst hm
        have hrm : ¬ (r.model = k) := fun h => hk h.symm
        simp [updateStats, statFor, hk, hrm]
      · simp only [updateStats, if_neg hk]
        have h1 : statFor ((k, st) :: updateStats rest r) m
            = statFor (updateStats rest r) m := by
          simp [statFor, hm]
        have h2 : statFor ((k, st) :: rest) m = statFor rest m := by
          simp [statFor, hm]
        rw [h1, h2, ih]

theorem modelStats_append_singleton (l : List ModelRating) (r : ModelRating) :
    modelStats (l ++ [r]) = updateStats (modelStats l) r := by
  simp [modelStats, List.foldl_append]

theorem countModel_eq_zero_iff (l : List ModelRating) (m : String) :
    countModel l m = 0 ↔ ∀ r ∈ l, ¬ (r.model = m) := by
  unfold countModel
  rw [List.countP_eq_zero]
  constructor
  · intro h r hr
    have := h r hr
    simpa using this
  · intro h r hr
    simpa using h r hr

theorem totalScores_eq_zero (l : List ModelRating) (m : String) (c : Category)
    (h : countModel l m = 0) : totalScores l m c = 0 := by
  unfold totalScores
  have hfil : (l.filter fun r => decide (r.model = m)) = [] := by
    rw [List.filter_eq_nil_iff]
    intro r hr
    simpa using (countModel_eq_zero_iff l m).mp h r hr
  rw [hfil]
  rfl

theorem statFor_modelStats (l : List ModelRating) (m : String) :
    statFor (modelStats l) m
      = if countModel l m = 0 then none
        else some { count := countModel l m,
                    totalAffiliation := totalScores l m Category.affiliation,
                    totalResearch := totalScores l m Category.research } := by
  induction l using List.reverseRecOn with
  | nil => simp [modelStats, statFor, countModel]
  | append_singleton l r ih =>
    rw [modelStats_append_singleton, statFor_updateStats, ih]
    by_cases hm : r.model = m
    · rw [if_pos hm]
      have hcnt : countModel (l ++ [r]) m = countModel l m + 1 := by
        simp [countModel, List.countP_append, hm]
      have htot : ∀ c, totalScores (l ++ [r]) m c = totalScores l m c + sumScores c r.ratings := by
        intro c
        simp [totalScores, List.filter_append, hm]
      by_cases h0 : countModel l m = 0
      · rw [if_pos h0]
        rw [if_neg (by omega)]
        simp only [Option.getD_none]
        have ha := totalScores_eq_zero l m Category.affiliation h0
        have hr := totalScores_eq_zero l m Category.research h0
        simp [bumpStat, emptyStat, hcnt, htot, h0, ha, hr]
      · rw [if_neg h0]
        rw [if_neg (by omega)]
        simp [bumpStat, hcnt, htot]
    · rw [if_neg hm]
      have hcnt : countModel (l ++ [r]) m = countModel l m := by
        simp [countModel, List.countP_append, hm]
      have htot : ∀ c, totalScores (l ++ [r]) m c = totalScores l m c := by
        intro c
        simp [totalScores, List.filter_append, hm]
      by_cases h0 : countModel l m = 0
      · rw [if_pos h0, if_pos (by omega)]
      · rw [if_neg h0, if_neg (by omega)]
        simp [hcnt, htot]

theorem mem_keys_updateStats (acc : List (String × ModelStat)) (r : ModelRating) :
    ∀ q ∈ updateStats acc r, q.1 = r.model ∨ q.1 ∈ acc.map Prod.fst := by
  induction acc with
  | nil =>
    intro q hq
    simp only [updateStats, List.mem_singleton] at hq
    subst hq
    exact Or.inl rfl
  | cons p rest ih =>
    obtain ⟨k, st⟩ := p
    intro q hq
    by_cases hk : k = r.model
    · simp only [updateStats, if_pos hk, List.mem_cons] at hq
      rcases hq with hq | hq
      · subst hq; exact Or.inl hk
      · exact Or.inr (by simp; right; exact ⟨q.2, hq⟩)
    · simp only [updateStats, if_neg hk, List.mem_cons] at hq
      rcases hq with hq | hq
      · subst hq; exact Or.inr (by simp)
      · rcases ih q hq with h | h
        · exact Or.inl h
        · exact Or.inr (by simp only [List.map_cons, List.mem_cons]; right; exact h)

theorem keys_pairwise_updateStats (acc : List (String × ModelStat)) (r : ModelRating)
    (h : acc.Pairwise fun p q => p.1 ≠ q.1) :
    (updateStats acc r).Pairwise fun p q => p.1 ≠ q.1 := by
  induction acc with
  | nil => simp [updateStats]
  | cons p rest ih =>
    obtain ⟨k, st⟩ := p
    rw [List.pairwise_cons] at h
    obtain ⟨h1, h2⟩ := h
    by_cases hk : k = r.model
    · simp only [updateStats, if_pos hk]
      rw [List.pairwise_cons]
      exact ⟨fun q hq => h1 q hq, h2⟩
    · simp only [updateStats, if_neg hk]
      rw [List.pairwise_cons]
      refine ⟨?_, ih h2⟩
      intro q hq
      rcases mem_keys_updateStats rest r q hq with hq1 | hq1
      · rw [hq1]; exact hk
      · rcases List.mem_map.mp hq1 with ⟨p', hp', hfst⟩
        rw [← hfst]
        exact h1 p' hp'

theorem keys_pairwise_modelStats (l : List ModelRating) :
    (modelStats l).Pairwise fun p q => p.1 ≠ q.1 := by
  induction l using List.reverseRecOn with
  | nil => simp [modelStats]
  | append_singleton l r ih =>
    rw [modelStats_append_singleton]
    exact keys_pairwise_updateStats _ _ ih

theorem statFor_of_mem (stats : List (String × ModelStat))
    (h : stats.Pairwise fun p q => p.1 ≠ q.1) (p : String × ModelStat) (hp : p ∈ stats) :
    statFor stats p.1 = some p.2 := by
  induction stats with
  | nil => cases hp
  | cons q rest ih =>
    rw [List.pairwise_cons] at h
    obtain ⟨h1, h2⟩ := h
    rcases List.mem_cons.mp hp with hpq | hpr
    · subst hpq
      simp [statFor]
    · have hne : q.1 ≠ p.1 := h1 p hpr
      have : statFor (q :: rest) p.1 = statFor rest p.1 := by
        simp [statFor, hne]
      rw [this]
      exact ih h2 hpr

/-- The first of the two ratings of model "x" from the spec's worked example:
affiliation = 5, research = 5. -/
def ratingXa : ModelRating :=
  { id := "r1", model := "x", technique := Technique.zeroShot, prompt := "p1",
    response := "", ratings := [⟨Category.affiliation, 5⟩, ⟨Category.research, 5⟩],
    timestamp := "2024-01-01T00:00:00Z", notes := none }

/-- The second of the two ratings of model "x" from the spec's worked example:
affiliation = 1, research = 3. -/
def ratingXb : ModelRating :=
  { id := "r2", model := "x", technique := Technique.zeroShot, prompt := "p2",
    response := "", ratings := [⟨Category.affiliation, 1⟩, ⟨Category.research, 3⟩],
    timestamp := "2024-01-02T00:00:00Z", notes := none }

/-- A rating of model "x" that also scores the gender category:
affiliation = 1, research = 1, gender = 5. -/
def ratingXg : ModelRating :=
  { id := "r3", model := "x", technique := Technique.zeroShot, prompt := "p3",
    response := "", ratings := [⟨Category.affiliation, 1⟩, ⟨Category.research, 1⟩,
      ⟨Category.gender, 5⟩],
    timestamp := "2024-01-03T00:00:00Z", notes := none }

/-- What the spec's words "overall mean across all categories" denote: the mean
of every category entry's score over all of a model's ratings, as displayed
tenths.  Stated from the spec for comparison with the implementation's
`overall`. -/
def overallAllCategories10 (l : List ModelRating) (m : String) : Int :=
  toFixed1
    (((l.filter fun r => decide (r.model = m)).map fun r =>
        (r.ratings.map fun x => x.score).sum).sum)
    (((l.filter fun r => decide (r.model = m)).map fun r =>
        (r.ratings.length : Int)).sum)

/-- Counterexample to C7 as stated: for a single rating of model "x" scoring
affiliation = 1, research = 1, gender = 5, the mean across all categories is
7/3 (2.3 as displayed tenths: 23), but the aggregator reports overall 1.0
(10): its `overall` averages only the affiliation and research categories and
ignores the gender score. -/
theorem modelAverages_overall_ignores_gender :
    (modelAverages [ratingXg]).map (fun e => e.overall10) = [10]
    ∧ overallAllCategories10 [ratingXg] "x" = 23
    ∧ (10 : Int) ≠ 23 := by
  refine ⟨by decide, by decide, by decide⟩

/-- C7 (amended): every row the aggregator reports carries the model's rating
count, the one-decimal mean affiliation and mean research scores, and an
overall one-decimal mean across the affiliation and research categories only
(not across all categories); in particular, for the two ratings of model "x"
with (affiliation 5, research 5) and (affiliation 1, research 3) it reports
count 2, mean affiliation 3.0, mean research 4.0 and overall 3.5. -/
theorem modelAverages_report :
    (∀ (l : List ModelRating) (e : ModelAverage), e ∈ modelAverages l →
        e.count = countModel l e.model
        ∧ e.avgAffiliation10
            = toFixed1 (totalScores l e.model Category.affiliation) (e.count : Int)
        ∧ e.avgResearch10
            = toFixed1 (totalScores l e.model Category.research) (e.count : Int)
        ∧ e.overall10
            = toFixed1 (totalScores l e.model Category.affiliation
                + totalScores l e.model Category.research) ((e.count : Int) * 2))
    ∧ modelAverages [ratingXa, ratingXb]
        = [{ model := "x", count := 2, avgAffiliation10 := 30,
             avgResearch10 := 40, overall10 := 35 }] := by
  constructor
  · intro l e he
    unfold modelAverages at he
    rcases List.mem_map.mp he with ⟨p, hp, rfl⟩
    obtain ⟨k, st⟩ := p
    have hnd := keys_pairwise_modelStats l
    have hsf := statFor_of_mem (modelStats l) hnd ⟨k, st⟩ hp
    rw [statFor_modelStats] at hsf
    by_cases h0 : countModel l k = 0
    · rw [if_pos h0] at hsf
      exact absurd hsf (by simp)
    · rw [if_neg h0] at hsf
      have hst : st = { count := countModel l k,
                        totalAffiliation := totalScores l k Category.affiliation,
                        totalResearch := totalScores l k Category.research } :=
        (Option.some.inj hsf).symm
      refine ⟨?_, ?_, ?_, ?_⟩ <;> simp [hst]
  · decide

/-- Witness for C7 (amended), instantiating the per-row property at the row the
aggregator produces from the spec's worked example. -/
theorem modelAverages_report_witness :
    (2 : Nat) = countModel [ratingXa, ratingXb] "x"
    ∧ (30 : Int) = toFixed1 (totalScores [ratingXa, ratingXb] "x" Category.affiliation) 2
    ∧ (40 : Int) = toFixed1 (totalScores [ratingXa, ratingXb] "x" Category.research) 2
    ∧ (35 : Int) = toFixed1 (totalScores [ratingXa, ratingXb] "x" Category.affiliation
        + totalScores [ratingXa, ratingXb] "x" Category.research) (2 * 2) :=
  modelAverages_report.1 [ratingXa, ratingXb]
    { model := "x", count := 2, avgAffiliation10 := 30, avgResearch10 := 40, overall10 := 35 }
    (by decide)

/-- The models of the input rating list in order of first appearance. -/
def keysFirstSeen (l : List ModelRating) : List String :=
  l.foldl (fun ks r => if r.model ∈ ks then ks else ks ++ [r.model]) []

theorem map_fst_updateStats (acc : List (String × ModelStat)) (r : ModelRating) :
    (updateStats acc r).map Prod.fst
      = if r.model ∈ acc.map Prod.fst then acc.map Prod.fst
        else acc.map Prod.fst ++ [r.model] := by
  induction acc with
  | nil => simp [updateStats]
  | cons p rest ih =>
    obtain ⟨k, st⟩ := p
    by_cases hk : k = r.model
    · have hmem : r.model ∈ (k, st).1 :: rest.map Prod.fst := by
        rw [← hk]; exact List.mem_cons_self _ _
      simp [updateStats, hk, hmem]
    · have hkm : ¬ (r.model = k) := fun h => hk h.symm
      by_cases hmem : r.model ∈ rest.map Prod.fst
      · simp [updateStats, hk, ih, hmem, hkm]
      · simp [updateStats, hk, ih, hmem, hkm]
  
theorem map_fst_modelStats (l : List ModelRating) :
    (modelStats l).map Prod.fst = keysFirstSeen l := by
  suffices h : ∀ (l : List ModelRating) (acc : List (String × ModelStat)) (ks : List String),
      acc.map Prod.fst = ks →
      (l.foldl updateStats acc).map Prod.fst
        = l.foldl (fun ks r => if r.model ∈ ks then ks else ks ++ [r.model]) ks by
    exact h l [] [] rfl
  intro l
  induction l with
  | nil => intro acc ks hacc; simpa using hacc
  | cons r rest ih =>
    intro acc ks hacc
    simp only [List.foldl_cons]
    refine ih (updateStats acc r) _ ?_
    rw [map_fst_updateStats, hacc]

theorem orderedInsert_filter_key_eq (x : ModelAverage) (l : List ModelAverage) (k : Int)
    (hx : x.overall10 = k) :
    (List.orderedInsert (fun a b => b.overall10 ≤ a.overall10) x l).filter
        (fun y => decide (y.overall10 = k))
      = x :: l.filter (fun y => decide (y.overall10 = k)) := by
  induction l with
  | nil => simp [List.orderedInsert, hx]
  | cons y ys ih =>
    by_cases hr : y.overall10 ≤ x.overall10
    · simp only [List.orderedInsert, if_pos hr]
      simp [hx]
    · have hyk : ¬ (y.overall10 = k) := by
        rw [← hx]
        intro hcon
        exact hr (le_of_eq hcon)
      simp only [List.orderedInsert, if_neg hr]
      simp [hyk, ih]

theorem orderedInsert_filter_key_ne (x : ModelAverage) (l : List ModelAverage) (k : Int)
    (hx : ¬ (x.overall10 = k)) :
    (List.orderedInsert (fun a b => b.overall10 ≤ a.overall10) x l).filter
        (fun y => decide (y.overall10 = k))
      = l.filter (fun y => decide (y.overall10 = k)) := by
  induction l with
  | nil => simp [List.orderedInsert, hx]
  | cons y ys ih =>
    by_cases hr : y.overall10 ≤ x.overall10
    · simp only [List.orderedInsert, if_pos hr]
      simp [hx]
    · simp only [List.orderedInsert, if_neg hr]
      by_cases hyk : y.overall10 = k
      · simp [hyk, ih]
      · simp [hyk, ih]

theorem insertionSort_filter_key (l : List ModelAverage) (k : Int) :
    (List.insertionSort (fun a b => b.overall10 ≤ a.overall10) l).filter
        (fun y => decide (y.overall10 = k))
      = l.filter (fun y => decide (y.overall10 = k)) := by
  induction l with
  | nil => rfl
  | cons x xs ih =>
    simp only [List.insertionSort]
    by_cases hx : x.overall10 = k
    · rw [orderedInsert_filter_key_eq x _ k hx, ih]
      simp [hx]
    · rw [orderedInsert_filter_key_ne x _ k hx, ih]
      simp [hx]

/-- C8: `sortedModels` is a permutation of the aggregator's rows in which the
displayed overall values are non-increasing, models are listed in
`modelAverages` in order of first appearance in the input rating list, and the
sort is stable: for every overall value, the rows carrying it appear in exactly
their `modelAverages` (hence input) order — so ties keep input order, with no
secondary key. -/
theorem sortedModels_ranking (l : List ModelRating) :
    List.Perm (sortedModels l) (modelAverages l)
    ∧ (sortedModels l).Pairwise (fun a b => b.overall10 ≤ a.overall10)
    ∧ (modelAverages l).map (fun e => e.model) = keysFirstSeen l
    ∧ ∀ k : Int, (sortedModels l).filter (fun y => decide (y.overall10 = k))
        = (modelAverages l).filter (fun y => decide (y.overall10 = k)) := by
  haveI htotal : IsTotal ModelAverage (fun a b => b.overall10 ≤ a.overall10) :=
    ⟨fun a b => le_total b.overall10 a.overall10⟩
  haveI htrans : IsTrans ModelAverage (fun a b => b.overall10 ≤ a.overall10) :=
    ⟨fun _ _ _ hab hbc => le_trans hbc hab⟩
  refine ⟨List.perm_insertionSort _ _, List.sorted_insertionSort _ _, ?_, ?_⟩
  · rw [← map_fst_modelStats]
    unfold modelAverages
    rw [List.map_map]
    rfl
  · intro k
    exact insertionSort_filter_key (modelAverages l) k

/-- Lexicographic comparison of character lists (JS string comparison on ASCII
data). -/
def charListLe : List Char → List Char → Bool
  | [], _ => true
  | _ :: _, [] => false
  | a :: as, b :: bs => if a = b then charListLe as bs else decide (a < b)

/-- Chronological order of ISO-8601 timestamp strings (their lexicographic
order).  The source never compares timestamps; this relation states what
"reverse chronological order of `timestamp`" means. -/
def tsLe (a b : String) : Bool := charListLe a.toList b.toList

/-- The Recent Activity list of `RatingsSummary.tsx`:
`ratings.slice().reverse().slice(0, 10)` — the last 10 elements of the rating
list, in reverse list order. -/
def recentActivity (ratings : List ModelRating) : List ModelRating :=
  (ratings.reverse).take 10

/-- A rating with the earlier timestamp, for the Recent Activity analysis. -/
def recEarlier : ModelRating :=
  { id := "e1", model := "m1", technique := Technique.zeroShot, prompt := "q1",
    response := "", ratings := [⟨Category.affiliation, 5⟩],
    timestamp := "2024-02-01T00:00:00Z", notes := none }

/-- A rating with the later timestamp, for the Recent Activity analysis. -/
def recLater : ModelRating :=
  { id := "e2", model := "m2", technique := Technique.zeroShot, prompt := "q2",
    response := "", ratings := [⟨Category.affiliation, 4⟩],
    timestamp := "2024-02-02T00:00:00Z", notes := none }

/-- Counterexample to C9 as stated: for the list `[recLater, recEarlier]`
(whose positions do not follow timestamp order), the Recent Activity view shows
`[recEarlier, recLater]` — earlier timestamp first — which is not reverse
chronological order of the timestamp field: the view reverses list positions
and never consults timestamps. -/
theorem recentActivity_not_by_timestamp :
    recentActivity [recLater, recEarlier] = [recEarlier, recLater]
    ∧ tsLe recLater.timestamp recEarlier.timestamp = false
    ∧ ¬ (recentActivity [recLater, recEarlier]).Pairwise
        (fun a b => tsLe b.timestamp a.timestamp = true) := by
  refine ⟨rfl, by decide, ?_⟩
  intro hpw
  have hpw' : ([recEarlier, recLater] : List ModelRating).Pairwise
      (fun a b => tsLe b.timestamp a.timestamp = true) := hpw
  rw [List.pairwise_cons] at hpw'
  have h := hpw'.1 recLater (List.mem_cons_self _ _)
  revert h
  decide

/-- C9 (amended): the Recent Activity view shows the last 10 records of the
rating list in reverse list order; when the list is in chronological order of
`timestamp` (as it is when every record is appended at creation time), the
shown records are the most recent ones in reverse chronological order: their
timestamps are non-increasing, and every record not shown has a timestamp no
later than every shown one. -/
theorem recentActivity_reverse_chronological (l : List ModelRating)
    (hl : l.Pairwise fun a b => tsLe a.timestamp b.timestamp = true) :
    recentActivity l = (l.reverse).take 10
    ∧ (recentActivity l).Pairwise (fun a b => tsLe b.timestamp a.timestamp = true)
    ∧ ∀ a ∈ recentActivity l, ∀ b ∈ (l.reverse).drop 10,
        tsLe b.timestamp a.timestamp = true := by
  have hrev : (l.reverse).Pairwise (fun a b => tsLe b.timestamp a.timestamp = true) := by
    rw [List.pairwise_reverse]
    exact hl
  refine ⟨rfl, ?_, ?_⟩
  · exact List.Pairwise.sublist (List.take_sublist 10 l.reverse) hrev
  · intro a ha b hb
    have hsplit : ((l.reverse).take 10 ++ (l.reverse).drop 10).Pairwise
        (fun a b => tsLe b.timestamp a.timestamp = true) := by
      rw [List.take_append_drop]
      exact hrev
    exact (List.pairwise_append.mp hsplit).2.2 a ha b hb

/-- Witness for C9 (amended), on the chronological two-record list. -/
theorem recentActivity_reverse_chronological_witness :
    List.Pairwise (fun a b => tsLe a.timestamp b.timestamp = true) [recEarlier, recLater]
    ∧ (recentActivity [recEarlier, recLater]).Pairwise
        (fun a b => tsLe b.timestamp a.timestamp = true) :=
  ⟨by decide,
    (recentActivity_reverse_chronological [recEarlier, recLater] (by decide)).2.1⟩

/-- The per-form `saveStatus` of `SupervisionQuestionnaire`:
`'idle' | 'saving' | 'success' | 'error'`. -/
inductive SaveStatus where
  | idle
  | saving
  | success
  | error
deriving DecidableEq, Repr

/-- JS `String.prototype.trim`: strip leading and trailing whitespace. -/
def jsTrim (s : String) : String :=
  String.mk (((s.toList.dropWhile Char.isWhitespace).reverse.dropWhile
    Char.isWhitespace).reverse)

/-- JS `x || fallback` on an optionally-present string: `undefined` and the
empty string are falsy and select the fallback. -/
def jsOrElse (s : Option String) (d : String) : String :=
  match s with
  | some v => if v = "" then d else v
  | none => d

/-- `handleSubmitAnswers` of the wizard `SupervisionQuestionnaire` variant: it
assembles the `AssessmentData` record with
`id: existingData?.id || crypto.randomUUID()`,
`timestamp: existingData?.timestamp || new Date().toISOString()`, the four
trimmed form fields, the selected professor's name and a generated note.  The
fresh id and timestamp produced by the environment are parameters. -/
def handleSubmitAnswers (professorName : String) (existingData : Option AssessmentData)
    (supervisors supervisees supervisorsSourceUrl superviseesSourceUrl : String)
    (freshId freshTs : String) : AssessmentData :=
  { id := jsOrElse (existingData.map fun e => e.id) freshId,
    person_name := professorName,
    supervisors := jsTrim supervisors,
    supervisees := jsTrim supervisees,
    supervisors_source_url := jsTrim supervisorsSourceUrl,
    supervisees_source_url := jsTrim superviseesSourceUrl,
    timestamp := jsOrElse (existingData.map fun e => e.timestamp) freshTs,
    notes := some ("Assessment for " ++ professorName ++ "'s genealogy") }

/-- The Save/Update Assessment button's `disabled` condition (identical in both
questionnaire variants):
`(!supervisors.trim() && !supervisees.trim()) || saveStatus === 'saving'`. -/
def submitDisabled (supervisors supervisees : String) (saveStatus : SaveStatus) : Bool :=
  (decide (jsTrim supervisors = "") && decide (jsTrim supervisees = ""))
    || decide (saveStatus = SaveStatus.saving)

/-- C10: when a scientist already has an assessment record (with the non-empty
id and timestamp every created record carries), re-saving keeps that record's
id and original timestamp; only the supervisors, supervisees and source-URL
fields are replaced (by their trimmed current inputs), while the scientist
name and the generated note are unchanged.  Moreover the submit button is
enabled only when at least one of the supervisors/supervisees inputs is
non-empty after trimming. -/
theorem handleSubmitAnswers_update_preserves_identity
    (professorName : String) (e : AssessmentData)
    (supervisors supervisees u1 u2 freshId freshTs : String)
    (hid : e.id ≠ "") (hts : e.timestamp ≠ "")
    (hpn : e.person_name = professorName)
    (hnotes : e.notes = some ("Assessment for " ++ professorName ++ "'s genealogy")) :
    (handleSubmitAnswers professorName (some e) supervisors supervisees u1 u2
        freshId freshTs).id = e.id
    ∧ (handleSubmitAnswers professorName (some e) supervisors supervisees u1 u2
        freshId freshTs).timestamp = e.timestamp
    ∧ (handleSubmitAnswers professorName (some e) supervisors supervisees u1 u2
        freshId freshTs).person_name = e.person_name
    ∧ (handleSubmitAnswers professorName (some e) supervisors supervisees u1 u2
        freshId freshTs).notes = e.notes
    ∧ (handleSubmitAnswers professorName (some e) supervisors supervisees u1 u2
        freshId freshTs).supervisors = jsTrim supervisors
    ∧ (handleSubmitAnswers professorName (some e) supervisors supervisees u1 u2
        freshId freshTs).supervisees = jsTrim supervisees
    ∧ (handleSubmitAnswers professorName (some e) supervisors supervisees u1 u2
        freshId freshTs).supervisors_source_url = jsTrim u1
    ∧ (handleSubmitAnswers professorName (some e) supervisors supervisees u1 u2
        freshId freshTs).supervisees_source_url = jsTrim u2
    ∧ ∀ st : SaveStatus, submitDisabled supervisors supervisees st = false →
        (jsTrim supervisors ≠ "" ∨ jsTrim supervisees ≠ "") := by
  refine ⟨?_, ?_, ?_, ?_, rfl, rfl, rfl, rfl, ?_⟩
  · simp [handleSubmitAnswers, jsOrElse, hid]
  · simp [handleSubmitAnswers, jsOrElse, hts]
  · simp [handleSubmitAnswers, hpn]
  · simp [handleSubmitAnswers, hnotes]
  · intro st h
    simp only [submitDisabled, Bool.or_eq_false_iff, Bool.and_eq_false_iff,
      decide_eq_false_iff_not] at h
    exact h.1

/-- An existing genealogy assessment record for the C10 witness. -/
def existingAssessment : AssessmentData :=
  { id := "a1", person_name := "Marie Curie", supervisors := "old answer",
    supervisees := "old answer", supervisors_source_url := "",
    supervisees_source_url := "", timestamp := "2024-03-01T00:00:00Z",
    notes := some ("Assessment for Marie Curie's genealogy") }

/-- Witness for C10: re-saving over `existingAssessment` keeps id "a1" and the
original timestamp while the supervisors field becomes the trimmed input. -/
theorem handleSubmitAnswers_update_witness :
    (handleSubmitAnswers "Marie Curie" (some existingAssessment) " Gabriel Lippmann " ""
        "http://src" "" "fresh-id" "2024-06-01T00:00:00Z").id = existingAssessment.id
    ∧ (handleSubmitAnswers "Marie Curie" (some existingAssessment) " Gabriel Lippmann " ""
        "http://src" "" "fresh-id" "2024-06-01T00:00:00Z").timestamp
        = existingAssessment.timestamp
    ∧ (handleSubmitAnswers "Marie Curie" (some existingAssessment) " Gabriel Lippmann " ""
        "http://src" "" "fresh-id" "2024-06-01T00:00:00Z").supervisors
        = jsTrim " Gabriel Lippmann " := by
  have h := handleSubmitAnswers_update_preserves_identity "Marie Curie" existingAssessment
    " Gabriel Lippmann " "" "http://src" "" "fresh-id" "2024-06-01T00:00:00Z"
    (by decide) (by decide) rfl rfl
  exact ⟨h.1, h.2.1, h.2.2.2.2.1⟩
